import Mathlib

/-!
Verification of the task-dependency-system core: graph model, cycle
detector, status resolver, cascade propagator, and the frontend layout
routine `calculateNodePositions`.

The backend Python sources (`backend/models.py`, `backend/services.py`,
`backend/views.py`) are not part of the repository snapshot; only their
documentation, pseudocode sketches (PROJECT_SUMMARY "Key Algorithms"
section) and test descriptions (TESTING_GUIDE.md) are.  Definitions for
those components are therefore modelled from the specification, as marked
in their doc comments.  The frontend components (`TaskItem.jsx`,
`DependencyGraph.jsx`) are present and embedded directly.
-/

namespace TaskDep

/-- The four task statuses of the fixed enumeration
`{pending, in_progress, completed, blocked}` (spec section 3, and the
`status ENUM` column of the `tasks` table in the README schema). -/
inductive Status where
  | pending
  | in_progress
  | completed
  | blocked
deriving DecidableEq, Repr

/-- An edge `(dependent, dependency)`: the first component depends on the
second (spec section 3; rows of the `task_dependencies` table are
`(task_id, depends_on_id)` pairs). -/
abbrev Edge := Nat × Nat

/-- Direct dependencies of `x`: all `d` with `(x, d)` an edge.
Graph Model forward adjacency (spec section 4.1). -/
def deps (E : List Edge) (x : Nat) : List Nat :=
  (E.filter (fun e => decide (e.1 = x))).map (·.2)

/-- Direct dependents of `x`: all `d` with `(d, x)` an edge.
Graph Model reverse adjacency (spec section 4.1). -/
def dependents (E : List Edge) (x : Nat) : List Nat :=
  (E.filter (fun e => decide (e.2 = x))).map (·.1)

theorem mem_deps {E : List Edge} {x y : Nat} :
    y ∈ deps E x ↔ (x, y) ∈ E := by
  simp only [deps, List.mem_map, List.mem_filter, decide_eq_true_eq]
  constructor
  · rintro ⟨⟨a, b⟩, ⟨hmem, rfl⟩, rfl⟩
    exact hmem
  · intro h
    exact ⟨(x, y), ⟨h, rfl⟩, rfl⟩

theorem mem_dependents {E : List Edge} {x y : Nat} :
    y ∈ dependents E x ↔ (y, x) ∈ E := by
  simp only [dependents, List.mem_map, List.mem_filter, decide_eq_true_eq]
  constructor
  · rintro ⟨⟨a, b⟩, ⟨hmem, rfl⟩, rfl⟩
    exact hmem
  · intro h
    exact ⟨(y, x), ⟨h, rfl⟩, rfl⟩

/-- One "depends-on" step: `a` directly depends on `b`. -/
def Step (E : List Edge) (a b : Nat) : Prop := (a, b) ∈ E

/-- `Reachable E a b`: there is a (possibly empty) path `a → … → b`
following existing depends-on edges (spec section 4.2). -/
def Reachable (E : List Edge) (a b : Nat) : Prop :=
  Relation.ReflTransGen (Step E) a b

/-- The DAG invariant (spec section 3): no node lies on a nonempty
depends-on cycle. -/
def Acyclic (E : List Edge) : Prop :=
  ∀ n, ¬ Relation.TransGen (Step E) n n

/-- Modelled from the spec: the depth-first search of the Cycle Detector
(`dfs_has_path` of the missing `backend/services.py`; spec section 4.2:
"Perform a depth-first traversal starting at `dependency`, following
existing depends-on edges outward, maintaining a visited set and an
explicit path stack").  Returns the pair of the search result and the
final visited set; on success the result carries the stack of nodes on
the found path from `cur` up to, but excluding, `target` (the caller
supplies both endpoints of the reported cycle, matching the concrete
paths documented in the spec scenarios, the README example and
TESTING_GUIDE.md).  The inner fold tries each outgoing neighbour in
turn, threading the visited set and short-circuiting once a path is
found.  `fuel` is a termination bound; it is a modelling artefact and is
always instantiated large enough to be irrelevant. -/
def dfsNode (E : List Edge) (target : Nat) :
    Nat → Nat → List Nat → Option (List Nat) × List Nat
  | 0, _, visited => (none, visited)
  | fuel + 1, cur, visited =>
    if cur = target then (some [], visited)
    else if cur ∈ visited then (none, visited)
    else
      match (deps E cur).foldl
          (fun acc n =>
            match acc with
            | (some p, v) => (some p, v)
            | (none, v) => dfsNode E target fuel n v)
          ((none : Option (List Nat)), cur :: visited) with
      | (some p, v) => (some (cur :: p), v)
      | (none, v) => (none, v)

/-- The neighbour loop of `dfsNode`, in recursion form — a convenient
reformulation of the inner fold for proofs. -/
def dfsList (E : List Edge) (target fuel : Nat) :
    List Nat → List Nat → Option (List Nat) × List Nat
  | [], visited => (none, visited)
  | n :: ns, visited =>
    match dfsNode E target fuel n visited with
    | (some p, v) => (some p, v)
    | (none, v) => dfsList E target fuel ns v

theorem dfs_foldl_some (E : List Edge) (target fuel : Nat) :
    ∀ (ns : List Nat) (p v : List Nat),
      ns.foldl (fun acc n =>
        match acc with
        | (some p, v) => (some p, v)
        | (none, v) => dfsNode E target fuel n v) (some p, v) =
      (some p, v) := by
  intro ns
  induction ns with
  | nil =>
    intro p v
    rfl
  | cons n ns ih =>
    intro p v
    exact ih p v

theorem dfs_foldl_eq_dfsList (E : List Edge) (target fuel : Nat) :
    ∀ (ns : List Nat) (vis : List Nat),
      ns.foldl (fun acc n =>
        match acc with
        | (some p, v) => (some p, v)
        | (none, v) => dfsNode E target fuel n v) (none, vis) =
      dfsList E target fuel ns vis := by
  intro ns
  induction ns with
  | nil =>
    intro vis
    rfl
  | cons n ns ih =>
    intro vis
    show List.foldl _ (dfsNode E target fuel n vis) ns = _
    rcases h : dfsNode E target fuel n vis with ⟨o, v⟩
    cases o with
    | some p =>
      simp only [dfsList, h]
      exact dfs_foldl_some E target fuel ns p v
    | none =>
      simp only [dfsList, h]
      exact ih v

/-- Unfolding equation of `dfsNode` in terms of `dfsList`. -/
theorem dfsNode_succ (E : List Edge) (target fuel cur : Nat)
    (visited : List Nat) :
    dfsNode E target (fuel + 1) cur visited =
      if cur = target then (some [], visited)
      else if cur ∈ visited then (none, visited)
      else
        match dfsList E target fuel (deps E cur) (cur :: visited) with
        | (some p, v) => (some (cur :: p), v)
        | (none, v) => (none, v) := by
  simp only [dfsNode]
  rw [dfs_foldl_eq_dfsList]

/-- The search entry point: DFS from `start` towards `target` with fuel
`E.length + 2`, which exceeds the number of distinct visitable nodes. -/
def dfs_path (E : List Edge) (start target : Nat) : Option (List Nat) :=
  (dfsNode E target (E.length + 2) start []).1

/-- A found path certificate: `PathTo E t c p` says `p` is the node
sequence the search reports when walking from `c` to `t` — it starts at
`c`, consecutive nodes are joined by depends-on edges, and the node just
before `t` closes the walk with an edge into `t` (`t` itself excluded). -/
def PathTo (E : List Edge) (t : Nat) : Nat → List Nat → Prop
  | c, [] => c = t
  | c, a :: rest => a = c ∧ ∃ n, (c, n) ∈ E ∧ PathTo E t n rest

theorem pathTo_reachable {E : List Edge} {t : Nat} :
    ∀ {p : List Nat} {c : Nat}, PathTo E t c p → Reachable E c t := by
  intro p
  induction p with
  | nil =>
    intro c h
    cases h
    exact Relation.ReflTransGen.refl
  | cons a rest ih =>
    intro c h
    obtain ⟨-, n, hedge, hrest⟩ := h
    exact Relation.ReflTransGen.head hedge (ih hrest)

/-- Soundness of one fuel level of `dfsList`, given soundness of
`dfsNode` at the same fuel. -/
theorem dfsList_sound_of_node {E : List Edge} {t : Nat} (fuel : Nat)
    (hnode : ∀ c vis p out, dfsNode E t fuel c vis = (some p, out) →
      PathTo E t c p) :
    ∀ ns vis p out, dfsList E t fuel ns vis = (some p, out) →
      ∃ n ∈ ns, PathTo E t n p := by
  intro ns
  induction ns with
  | nil =>
    intro vis p out h
    simp [dfsList] at h
  | cons n ns ih =>
    intro vis p out h
    simp only [dfsList] at h
    rcases hn : dfsNode E t fuel n vis with ⟨on1, v1⟩
    rw [hn] at h
    cases on1 with
    | some q =>
      obtain ⟨hq, hv⟩ : q = p ∧ v1 = out := by
        simpa using h
      exact ⟨n, List.mem_cons_self _ _, hq ▸ hnode n vis q v1 hn⟩
    | none =>
      obtain ⟨m, hm, hp⟩ := ih v1 p out (by simpa using h)
      exact ⟨m, List.mem_cons_of_mem _ hm, hp⟩

/-- DFS soundness: a successful search yields a genuine path. -/
theorem dfsNode_sound {E : List Edge} {t : Nat} :
    ∀ (fuel : Nat) (c : Nat) (vis : List Nat) (p out : List Nat),
      dfsNode E t fuel c vis = (some p, out) → PathTo E t c p := by
  intro fuel
  induction fuel with
  | zero =>
    intro c vis p out h
    simp [dfsNode] at h
  | succ fuel ih =>
    intro c vis p out h
    rw [dfsNode_succ] at h
    by_cases hct : c = t
    · simp only [hct, if_pos rfl] at h
      obtain ⟨rfl, -⟩ : ([] : List Nat) = p ∧ vis = out := by simpa using h
      exact hct
    · rw [if_neg hct] at h
      by_cases hcv : c ∈ vis
      · simp [if_pos hcv] at h
      · rw [if_neg hcv] at h
        rcases hl : dfsList E t fuel (deps E c) (c :: vis) with ⟨ol, v1⟩
        rw [hl] at h
        cases ol with
        | some q =>
          obtain ⟨rfl, -⟩ : c :: q = p ∧ v1 = out := by simpa using h
          obtain ⟨n, hn, hq⟩ :=
            dfsList_sound_of_node fuel (fun c' vis' p' out' => ih c' vis' p' out')
              (deps E c) (c :: vis) q v1 hl
          exact ⟨rfl, n, mem_deps.mp hn, hq⟩
        | none =>
          simp at h

/-- Candidate nodes of `L` not yet in the visited set — the termination
measure justifying the fuel bound of `dfs_path`. -/
def unseen (L vis : List Nat) : Nat := (L.toFinset \ vis.toFinset).card

theorem unseen_anti {L vis vis' : List Nat} (h : ∀ x ∈ vis, x ∈ vis') :
    unseen L vis' ≤ unseen L vis := by
  apply Finset.card_le_card
  intro x hx
  simp only [Finset.mem_sdiff, List.mem_toFinset] at hx ⊢
  exact ⟨hx.1, fun hm => hx.2 (h x hm)⟩

theorem unseen_lt {L vis : List Nat} {c : Nat} (hcL : c ∈ L) (hcv : c ∉ vis) :
    unseen L (c :: vis) < unseen L vis := by
  apply Finset.card_lt_card
  constructor
  · intro x hx
    simp only [Finset.mem_sdiff, List.mem_toFinset, List.mem_cons] at hx ⊢
    exact ⟨hx.1, fun hm => hx.2 (Or.inr hm)⟩
  · intro hsub
    have hc : c ∈ L.toFinset \ vis.toFinset := by
      simp only [Finset.mem_sdiff, List.mem_toFinset]
      exact ⟨hcL, hcv⟩
    have h2 := hsub hc
    rw [Finset.mem_sdiff, List.mem_toFinset, List.mem_toFinset] at h2
    exact h2.2 (List.mem_cons_self c vis)

theorem unseen_le_length (L : List Nat) : unseen L [] ≤ L.length := by
  calc (L.toFinset \ [].toFinset).card ≤ L.toFinset.card :=
        Finset.card_le_card (Finset.sdiff_subset)
    _ ≤ L.length := L.toFinset_card_le

/-- After a failed search the freshly visited region is fully explored:
every newly visited node is not the target, and all its successors are
again visited and not the target. -/
def GoodFrom (E : List Edge) (t : Nat) (vis out : List Nat) : Prop :=
  ∀ x ∈ out, x ∉ vis → x ≠ t ∧ ∀ y, (x, y) ∈ E → y ≠ t ∧ y ∈ out

theorem goodFrom_trans {E : List Edge} {t : Nat} {vis v1 out : List Nat}
    (h1 : ∀ x ∈ v1, x ∈ out) (hg1 : GoodFrom E t vis v1)
    (hg2 : GoodFrom E t v1 out) : GoodFrom E t vis out := by
  intro x hxout hxvis
  by_cases hxv1 : x ∈ v1
  · obtain ⟨hxt, hsucc⟩ := hg1 x hxv1 hxvis
    exact ⟨hxt, fun y hy => ⟨(hsucc y hy).1, h1 y (hsucc y hy).2⟩⟩
  · exact hg2 x hxout hxv1

/-- Failure analysis for `dfsList`, assuming it for `dfsNode` at the same
fuel level. -/
theorem dfsList_fail_of_node {E : List Edge} {t : Nat} {L : List Nat}
    (fuel : Nat)
    (hnode : ∀ c vis out, c ∈ L → unseen L vis + 1 ≤ fuel →
      dfsNode E t fuel c vis = (none, out) →
      (∀ x ∈ vis, x ∈ out) ∧ c ∈ out ∧ c ≠ t ∧ GoodFrom E t vis out) :
    ∀ ns vis out, (∀ n ∈ ns, n ∈ L) → unseen L vis + 1 ≤ fuel →
      dfsList E t fuel ns vis = (none, out) →
      (∀ x ∈ vis, x ∈ out) ∧ GoodFrom E t vis out ∧
        ∀ n ∈ ns, n ∈ out ∧ n ≠ t := by
  intro ns
  induction ns with
  | nil =>
    intro vis out _ _ h
    obtain rfl : vis = out := by simpa [dfsList] using h
    refine ⟨fun x hx => hx, ?_, by simp⟩
    intro x hx hx'
    exact absurd hx hx'
  | cons n ns ih =>
    intro vis out hns hfuel h
    simp only [dfsList] at h
    rcases hn : dfsNode E t fuel n vis with ⟨o1, v1⟩
    rw [hn] at h
    cases o1 with
    | some q => simp at h
    | none =>
      have h2 : dfsList E t fuel ns v1 = (none, out) := by simpa using h
      obtain ⟨hsub1, hnin, hnt, hg1⟩ :=
        hnode n vis v1 (hns n (List.mem_cons_self _ _)) hfuel hn
      have hfuel2 : unseen L v1 + 1 ≤ fuel :=
        le_trans (Nat.add_le_add_right (unseen_anti hsub1) 1) hfuel
      obtain ⟨hsub2, hg2, hrest⟩ :=
        ih v1 out (fun m hm => hns m (List.mem_cons_of_mem _ hm)) hfuel2 h2
      refine ⟨fun x hx => hsub2 x (hsub1 x hx), goodFrom_trans hsub2 hg1 hg2, ?_⟩
      intro m hm
      rcases List.mem_cons.mp hm with rfl | hm'
      · exact ⟨hsub2 m hnin, hnt⟩
      · exact hrest m hm'

/-- Failure analysis for `dfsNode`: with adequate fuel, a failed search
has fully explored the start node's reachable region without meeting the
target. -/
theorem dfsNode_fail {E : List Edge} {t : Nat} {L : List Nat}
    (hL : ∀ e ∈ E, e.2 ∈ L) :
    ∀ (fuel : Nat) (c : Nat) (vis out : List Nat), c ∈ L →
      unseen L vis + 1 ≤ fuel →
      dfsNode E t fuel c vis = (none, out) →
      (∀ x ∈ vis, x ∈ out) ∧ c ∈ out ∧ c ≠ t ∧ GoodFrom E t vis out := by
  intro fuel
  induction fuel with
  | zero =>
    intro c vis out _ hfuel _
    omega
  | succ fuel ih =>
    intro c vis out hcL hfuel h
    rw [dfsNode_succ] at h
    by_cases hct : c = t
    · rw [if_pos hct] at h
      simp at h
    · rw [if_neg hct] at h
      by_cases hcv : c ∈ vis
      · rw [if_pos hcv] at h
        obtain rfl : vis = out := by simpa using h
        refine ⟨fun x hx => hx, hcv, hct, ?_⟩
        intro x hx hx'
        exact absurd hx hx'
      · rw [if_neg hcv] at h
        rcases hl : dfsList E t fuel (deps E c) (c :: vis) with ⟨ol, v1⟩
        rw [hl] at h
        cases ol with
        | some q => simp at h
        | none =>
          obtain rfl : v1 = out := by simpa using h
          have hlt : unseen L (c :: vis) < unseen L vis := unseen_lt hcL hcv
          have hfuel' : unseen L (c :: vis) + 1 ≤ fuel := by omega
          have hdepsL : ∀ n ∈ deps E c, n ∈ L := fun n hn =>
            hL (c, n) (mem_deps.mp hn)
          obtain ⟨hsub, hg, hsucc⟩ :=
            dfsList_fail_of_node fuel ih (deps E c) (c :: vis) v1
              hdepsL hfuel' hl
          have hcin : c ∈ v1 := hsub c (List.mem_cons_self _ _)
          refine ⟨fun x hx => hsub x (List.mem_cons_of_mem _ hx), hcin, hct, ?_⟩
          intro x hxout hxvis
          by_cases hxc : x = c
          · subst hxc
            refine ⟨hct, fun y hy => ?_⟩
            have := hsucc y (mem_deps.mpr hy)
            exact ⟨this.2, this.1⟩
          · exact hg x hxout (by simp [hxc, hxvis])

/-- Completeness of the depth-first search: a failed search implies the
target is genuinely unreachable from the start node. -/
theorem dfs_path_none_iff {E : List Edge} {v t : Nat} :
    dfs_path E v t = none ↔ ¬ Reachable E v t := by
  constructor
  · intro h hreach
    rcases hrun : dfsNode E t (E.length + 2) v [] with ⟨o, out⟩
    have ho : o = none := by
      have : (dfsNode E t (E.length + 2) v []).1 = none := h
      rw [hrun] at this
      exact this
    subst ho
    set L : List Nat := v :: E.map (·.2) with hLdef
    have hL : ∀ e ∈ E, e.2 ∈ L := by
      intro e he
      exact List.mem_cons_of_mem _ (List.mem_map_of_mem _ he)
    have hvL : v ∈ L := List.mem_cons_self _ _
    have hfuel : unseen L [] + 1 ≤ E.length + 2 := by
      have h1 : unseen L [] ≤ L.length := unseen_le_length L
      have h2 : L.length = E.length + 1 := by simp [hLdef]
      omega
    obtain ⟨-, hvout, hvt, hgood⟩ := dfsNode_fail hL _ v [] out hvL hfuel hrun
    have key : ∀ a, Reachable E a t → a ∈ out → False := by
      intro a ha
      induction ha using Relation.ReflTransGen.head_induction_on with
      | refl =>
        intro hmem
        exact (hgood t hmem (by simp)).1 rfl
      | @head a' c' hstep htail ihc =>
        intro hmem
        have := (hgood a' hmem (by simp)).2 c' hstep
        exact ihc this.2
    exact key v hreach hvout
  · intro h
    rcases hp : dfs_path E v t with _ | p
    · rfl
    · exfalso
      rcases hrun : dfsNode E t (E.length + 2) v [] with ⟨o, out⟩
      have : o = some p := by
        have : (dfsNode E t (E.length + 2) v []).1 = some p := hp
        rw [hrun] at this
        exact this
      subst this
      exact h (pathTo_reachable (dfsNode_sound _ v [] p out hrun))

/-- Modelled from the spec and the PROJECT_SUMMARY pseudocode sketch of
`detect_cycle` (the full function lives in the missing
`backend/services.py`): search for an existing path
`dependency → … → dependent`; on success report the cycle that adding
`(dependent, dependency)` would create.  The reported path starts at the
dependent, follows the found path from the dependency, and closes with
the dependent again — matching the concrete paths of the spec scenarios
(`[1, 2, 1]` and `[1, 3, 2, 1]`), the README example (`[3, 1, 2, 3]`)
and TESTING_GUIDE.md. -/
def detect_cycle (E : List Edge) (task_id depends_on_id : Nat) :
    Option (List Nat) :=
  match dfs_path E depends_on_id task_id with
  | some p => some (task_id :: p ++ [task_id])
  | none => none

/-- Outcome of an edge proposal (spec sections 4.2 and 6): acceptance or
exactly one of the three rejection kinds. -/
inductive ProposeResult where
  | accept
  | selfDependency
  | duplicateDependency
  | circularDependency (path : List Nat)
deriving DecidableEq, Repr

/-- Modelled from the spec: the `ProposeEdge` operation (spec section 6,
implemented by the missing backend serializer/view code):
self-dependencies and duplicate edges are rejected before any traversal
(section 4.2 preconditions), then the cycle detector decides. -/
def ProposeEdge (E : List Edge) (dependent dependency : Nat) :
    ProposeResult :=
  if dependent = dependency then .selfDependency
  else if (dependent, dependency) ∈ E then .duplicateDependency
  else
    match detect_cycle E dependent dependency with
    | some p => .circularDependency p
    | none => .accept

theorem detect_cycle_eq_none {E : List Edge} {u v : Nat} :
    detect_cycle E u v = none ↔ dfs_path E v u = none := by
  unfold detect_cycle
  rcases dfs_path E v u with _ | p <;> simp

/-- The admission condition: an edge proposal is accepted exactly when
the dependent is not reachable from the dependency, the edge is not a
self-edge, and it is not already present. -/
theorem proposeEdge_accept_iff (E : List Edge) (u v : Nat) :
    ProposeEdge E u v = .accept ↔
      ¬ Reachable E v u ∧ u ≠ v ∧ (u, v) ∉ E := by
  unfold ProposeEdge
  by_cases h1 : u = v
  · simp [h1]
  · rw [if_neg h1]
    by_cases h2 : (u, v) ∈ E
    · simp [h2, h1]
    · rw [if_neg h2]
      rcases hd : detect_cycle E u v with _ | p
      · have : ¬ Reachable E v u :=
          dfs_path_none_iff.mp (detect_cycle_eq_none.mp hd)
        simp [this, h1, h2]
      · have hne : detect_cycle E u v ≠ none := by simp [hd]
        have : Reachable E v u := by
          by_contra hr
          exact hne (detect_cycle_eq_none.mpr (dfs_path_none_iff.mpr hr))
        simp [this]

theorem pathTo_head {E : List Edge} {t c a : Nat} {rest : List Nat}
    (h : PathTo E t c (a :: rest)) : a = c := h.1

/-- The node sequence certified by `PathTo`, extended by the target,
forms a chain of depends-on edges. -/
theorem chain_of_pathTo {E : List Edge} {t : Nat} :
    ∀ {p : List Nat} {c : Nat}, PathTo E t c p →
      List.Chain' (fun a b => (a, b) ∈ E) (p ++ [t]) := by
  intro p
  induction p with
  | nil =>
    intro c _
    simp
  | cons a rest ih =>
    intro c h
    obtain ⟨rfl, n, hedge, hrest⟩ := h
    cases rest with
    | nil =>
      have hn : n = t := hrest
      subst hn
      simpa using hedge
    | cons b rest' =>
      have hb : b = n := pathTo_head hrest
      subst hb
      exact List.Chain'.cons hedge (ih hrest)

/-- Shape of every reported circular-dependency path: it starts and ends
at the dependent, continues with the dependency, and its consecutive
nodes are all edges of the graph extended by the proposed edge — i.e. it
literally exhibits the cycle that the insertion would create. -/
theorem proposeEdge_circular_shape (E : List Edge) (u v : Nat)
    (p : List Nat) (h : ProposeEdge E u v = .circularDependency p) :
    ∃ mid, p = u :: mid ++ [u] ∧ mid.head? = some v ∧
      List.Chain' (fun a b => (a, b) ∈ ((u, v) :: E)) p := by
  unfold ProposeEdge at h
  by_cases h1 : u = v
  · simp [h1] at h
  · rw [if_neg h1] at h
    by_cases h2 : (u, v) ∈ E
    · simp [h2] at h
    · rw [if_neg h2] at h
      rcases hd : detect_cycle E u v with _ | q
      · rw [hd] at h
        simp at h
      · rw [hd] at h
        have hq : q = p := by simpa using h
        subst hq
        unfold detect_cycle at hd
        rcases hp : dfs_path E v u with _ | mid
        · rw [hp] at hd
          simp at hd
        · rw [hp] at hd
          obtain hshape : u :: mid ++ [u] = q := by simpa using hd
          rcases hrun : dfsNode E u (E.length + 2) v [] with ⟨o, out⟩
          have ho : o = some mid := by
            have : (dfsNode E u (E.length + 2) v []).1 = some mid := hp
            rw [hrun] at this
            exact this
          subst ho
          have hpath : PathTo E u v mid := dfsNode_sound _ v [] mid out hrun
          have hmidne : mid ≠ [] := by
            intro hnil
            subst hnil
            exact h1 hpath.symm
          refine ⟨mid, hshape.symm, ?_, ?_⟩
          · cases mid with
            | nil => exact absurd rfl hmidne
            | cons m0 mrest =>
              have : m0 = v := pathTo_head hpath
              simp [this]
          · rw [← hshape]
            cases mid with
            | nil => exact absurd rfl hmidne
            | cons m0 mrest =>
              have hm0 : m0 = v := pathTo_head hpath
              subst hm0
              refine List.Chain'.cons (by simp) ?_
              exact (chain_of_pathTo hpath).imp
                (fun a b hab => List.mem_cons_of_mem _ hab)

/-- Decomposition of reachability in a graph extended by one edge
`(u, v)`: either the path avoids the new edge, or it reaches `u`, takes
the new edge, and continues from `v`. -/
theorem reach_insert_decompose {E : List Edge} {u v : Nat} :
    ∀ {a b : Nat}, Reachable ((u, v) :: E) a b →
      Reachable E a b ∨ (Reachable E a u ∧ Reachable E v b) := by
  intro a b h
  induction h with
  | refl => exact Or.inl Relation.ReflTransGen.refl
  | tail hab hstep ih =>
    rename_i c d
    rcases List.mem_cons.mp hstep with heq | hmem
    · injection heq with hc hd
      subst hc
      subst hd
      rcases ih with h' | ⟨h1, _⟩
      · exact Or.inr ⟨h', Relation.ReflTransGen.refl⟩
      · exact Or.inr ⟨h1, Relation.ReflTransGen.refl⟩
    · rcases ih with h' | ⟨h1, h2⟩
      · exact Or.inl (h'.tail hmem)
      · exact Or.inr ⟨h1, h2.tail hmem⟩

/-- Adding an admissible edge preserves acyclicity. -/
theorem acyclic_insert {E : List Edge} {u v : Nat} (hA : Acyclic E)
    (hnr : ¬ Reachable E v u) (hne : u ≠ v) : Acyclic ((u, v) :: E) := by
  intro n hcyc
  obtain ⟨m, hstep, hrtg⟩ := Relation.TransGen.head'_iff.mp hcyc
  rcases List.mem_cons.mp hstep with heq | hmem
  · injection heq with hn hm
    subst hn
    subst hm
    rcases reach_insert_decompose hrtg with h' | ⟨h1, _⟩
    · exact hnr h'
    · exact hnr h1
  · rcases reach_insert_decompose hrtg with h' | ⟨h1, h2⟩
    · exact hA n (Relation.TransGen.head' hmem h')
    · exact hnr (h2.trans (Relation.ReflTransGen.head hmem h1))

/-- Modelled from the spec: the Status Resolver
(`update_status_based_on_dependencies` of the missing
`backend/models.py`; spec section 4.3 rules 1 to 4, in order, together
with the note that a node's own `completed` status is terminal and never
overwritten by derivation). -/
def resolveStatus (own : Status) (ds : List Status) : Status :=
  if ds = [] then own
  else if own = Status.completed then own
  else if Status.blocked ∈ ds then Status.blocked
  else if ∀ d ∈ ds, d = Status.completed then Status.in_progress
  else Status.pending

/-- Statuses of the direct dependencies of `x` under the status map `s`. -/
def depStatuses (E : List Edge) (s : Nat → Status) (x : Nat) : List Status :=
  (deps E x).map s

/-- Pointwise update of a status map. -/
def updateS (s : Nat → Status) (x : Nat) (v : Status) : Nat → Status :=
  fun y => if y = x then v else s y

/-- One resolver application to node `x` (spec section 4.3). -/
def resolveNode (E : List Edge) (s : Nat → Status) (x : Nat) :
    Nat → Status :=
  updateS s x (resolveStatus (s x) (depStatuses E s x))

/-- The Cascade Propagator, following the traversal structure of the
PROJECT_SUMMARY pseudocode (re-resolve the node, then recursively
re-resolve every direct dependent; the missing `backend/models.py`
implements this as same-node recursive method calls).  `fuel` is a
termination bound, a modelling artefact: the real recursion is bounded
by the DAG invariant (spec section 4.4), and `cascade` below
instantiates it large enough for any acyclic graph. -/
def cascadeNode (E : List Edge) : Nat → Nat → (Nat → Status) →
    Nat → Status
  | 0, _, s => s
  | fuel + 1, x, s =>
    (dependents E x).foldl (fun st c => cascadeNode E fuel c st)
      (resolveNode E s x)

/-- Cascade entry point: propagate a status-affecting event at node `x`
through its transitive dependents (spec sections 4.4 and 6). -/
def cascade (E : List Edge) (x : Nat) (s : Nat → Status) : Nat → Status :=
  cascadeNode E (E.length + 2) x s

/-- A node is stable when re-resolving it changes nothing. -/
def stable (E : List Edge) (s : Nat → Status) (y : Nat) : Prop :=
  resolveStatus (s y) (depStatuses E s y) = s y

theorem resolveStatus_idem (own : Status) (ds : List Status) :
    resolveStatus (resolveStatus own ds) ds = resolveStatus own ds := by
  unfold resolveStatus
  by_cases h1 : ds = []
  · simp [h1]
  · rw [if_neg h1, if_neg h1]
    by_cases h2 : own = Status.completed
    · simp [h2]
    · rw [if_neg h2]
      by_cases h3 : Status.blocked ∈ ds
      · simp [h3]
      · rw [if_neg h3]
        by_cases h4 : ∀ d ∈ ds, d = Status.completed
        · simp [h3, h4]
        · simp [h3, h4]

theorem updateS_apply_self (s : Nat → Status) (x : Nat) (v : Status) :
    updateS s x v x = v := by
  simp [updateS]

theorem updateS_apply_ne (s : Nat → Status) {x y : Nat} (v : Status)
    (h : y ≠ x) : updateS s x v y = s y := by
  simp [updateS, h]

theorem updateS_same (s : Nat → Status) (x : Nat) {v : Status}
    (h : v = s x) : updateS s x v = s := by
  funext y
  by_cases hy : y = x
  · subst hy
    simp [updateS, h]
  · simp [updateS, hy]

theorem resolveNode_apply_ne (E : List Edge) (s : Nat → Status)
    {x y : Nat} (h : y ≠ x) : resolveNode E s x y = s y :=
  updateS_apply_ne s _ h

theorem resolveNode_apply_self (E : List Edge) (s : Nat → Status)
    (x : Nat) :
    resolveNode E s x x = resolveStatus (s x) (depStatuses E s x) :=
  updateS_apply_self s x _

/-- `DepthLE E fuel x`: every chain of direct dependents starting at `x`
has fewer than `fuel` steps. -/
def DepthLE (E : List Edge) : Nat → Nat → Prop
  | 0, _ => False
  | fuel + 1, x => ∀ c ∈ dependents E x, DepthLE E fuel c

theorem depthLE_succ {E : List Edge} :
    ∀ {fuel x}, DepthLE E fuel x → DepthLE E (fuel + 1) x := by
  intro fuel
  induction fuel with
  | zero =>
    intro x h
    exact absurd h (by simp [DepthLE])
  | succ fuel ih =>
    intro x h
    intro c hc
    exact ih (h c hc)

theorem depthLE_mono {E : List Edge} {f g x : Nat} (h : DepthLE E f x)
    (hfg : f ≤ g) : DepthLE E g x := by
  induction hfg with
  | refl => exact h
  | step _ ih => exact depthLE_succ ih

/-- A chain of direct dependents hanging off `x`. -/
def ChainFrom (E : List Edge) : Nat → List Nat → Prop
  | _, [] => True
  | x, c :: l => (c, x) ∈ E ∧ ChainFrom E c l

theorem chainFrom_reaches {E : List Edge} :
    ∀ {l x}, ChainFrom E x l →
      ∀ y ∈ l, Relation.TransGen (Step E) y x := by
  intro l
  induction l with
  | nil =>
    intro x _ y hy
    simp at hy
  | cons c l ih =>
    intro x h y hy
    obtain ⟨hcx, hchain⟩ := h
    rcases List.mem_cons.mp hy with rfl | hy'
    · exact Relation.TransGen.single hcx
    · exact (ih hchain y hy').tail hcx

theorem chainFrom_nodup {E : List Edge} (hA : Acyclic E) :
    ∀ {l x}, ChainFrom E x l → (x :: l).Nodup := by
  intro l
  induction l with
  | nil =>
    intro x _
    simp
  | cons c l ih =>
    intro x h
    obtain ⟨hcx, hchain⟩ := h
    have htail : (c :: l).Nodup := ih hchain
    refine List.nodup_cons.mpr ⟨?_, htail⟩
    intro hx
    rcases List.mem_cons.mp hx with rfl | hx'
    · exact hA x (Relation.TransGen.single hcx)
    · exact hA x ((chainFrom_reaches hchain x hx').tail hcx)

theorem chainFrom_subset_fst {E : List Edge} :
    ∀ {l x}, ChainFrom E x l → ∀ y ∈ l, y ∈ E.map (·.1) := by
  intro l
  induction l with
  | nil =>
    intro x _ y hy
    simp at hy
  | cons c l ih =>
    intro x h y hy
    obtain ⟨hcx, hchain⟩ := h
    rcases List.mem_cons.mp hy with rfl | hy'
    · exact List.mem_map.mpr ⟨(y, x), hcx, rfl⟩
    · exact ih hchain y hy'

theorem not_depthLE_chain {E : List Edge} :
    ∀ {fuel x}, ¬ DepthLE E fuel x →
      ∃ l, ChainFrom E x l ∧ l.length = fuel := by
  intro fuel
  induction fuel with
  | zero =>
    intro x _
    exact ⟨[], trivial, rfl⟩
  | succ fuel ih =>
    intro x h
    have : ∃ c ∈ dependents E x, ¬ DepthLE E fuel c := by
      by_contra hall
      push_neg at hall
      exact h hall
    obtain ⟨c, hc, hnd⟩ := this
    obtain ⟨l, hchain, hlen⟩ := ih hnd
    exact ⟨c :: l, ⟨mem_dependents.mp hc, hchain⟩, by simp [hlen]⟩

/-- In an acyclic graph every dependent-chain is shorter than the number
of edges plus one. -/
theorem acyclic_depthLE {E : List Edge} (hA : Acyclic E) (x : Nat) :
    DepthLE E (E.length + 1) x := by
  by_contra h
  obtain ⟨l, hchain, hlen⟩ := not_depthLE_chain h
  have hnodup : l.Nodup := (List.nodup_cons.mp (chainFrom_nodup hA hchain)).2
  have hsub : l.toFinset ⊆ (E.map (·.1)).toFinset := by
    intro y hy
    exact List.mem_toFinset.mpr
      (chainFrom_subset_fst hchain y (List.mem_toFinset.mp hy))
  have hcard : l.length ≤ E.length := by
    calc l.length = l.toFinset.card := (List.toFinset_card_of_nodup hnodup).symm
      _ ≤ (E.map (·.1)).toFinset.card := Finset.card_le_card hsub
      _ ≤ (E.map (·.1)).length := (E.map (·.1)).toFinset_card_le
      _ = E.length := List.length_map _ _
  omega

/-- Folding cascades over a list of dependents: frame property (nodes
reaching no listed dependent are untouched) and stability propagation,
assuming both for single cascades at the given fuel. -/
theorem cascadeFold_aux {E : List Edge} (fuel : Nat)
    (IH : ∀ x s, DepthLE E fuel x →
      (∀ y, ¬ Reachable E y x → cascadeNode E fuel x s y = s y) ∧
      (∀ y, Reachable E y x → stable E (cascadeNode E fuel x s) y)) :
    ∀ (cs : List Nat) (s : Nat → Status), (∀ c ∈ cs, DepthLE E fuel c) →
      (∀ y, (∀ c ∈ cs, ¬ Reachable E y c) →
        (cs.foldl (fun st c => cascadeNode E fuel c st) s) y = s y) ∧
      (∀ y, (stable E s y ∨ ∃ c ∈ cs, Reachable E y c) →
        stable E (cs.foldl (fun st c => cascadeNode E fuel c st) s) y) := by
  intro cs
  induction cs with
  | nil =>
    intro s _
    refine ⟨fun y _ => rfl, fun y hy => ?_⟩
    rcases hy with hst | ⟨c, hc, _⟩
    · exact hst
    · simp at hc
  | cons c cs ih =>
    intro s hcs
    have hDc : DepthLE E fuel c := hcs c (List.mem_cons_self _ _)
    have hcs' : ∀ c' ∈ cs, DepthLE E fuel c' := fun c' hc' =>
      hcs c' (List.mem_cons_of_mem _ hc')
    have IHc := IH c s hDc
    have hfold :
        (c :: cs).foldl (fun st c => cascadeNode E fuel c st) s =
          cs.foldl (fun st c => cascadeNode E fuel c st)
            (cascadeNode E fuel c s) := rfl
    rw [hfold]
    set s1 := cascadeNode E fuel c s with hs1
    constructor
    · intro y hy
      have h1 : s1 y = s y := IHc.1 y (hy c (List.mem_cons_self _ _))
      have h2 := (ih s1 hcs').1 y (fun c' hc' =>
        hy c' (List.mem_cons_of_mem _ hc'))
      rw [h2, h1]
    · intro y hy
      rcases hy with hst | ⟨c', hc', hr⟩
      · by_cases hrc : Reachable E y c
        · exact (ih s1 hcs').2 y (Or.inl (IHc.2 y hrc))
        · have hy1 : s1 y = s y := IHc.1 y hrc
          have hdeps : depStatuses E s1 y = depStatuses E s y := by
            unfold depStatuses
            apply List.map_congr_left
            intro z hz
            apply IHc.1 z
            intro hrz
            exact hrc (Relation.ReflTransGen.head (mem_deps.mp hz) hrz)
          have hst1 : stable E s1 y := by
            unfold stable at hst ⊢
            rw [hy1, hdeps, hst]
          exact (ih s1 hcs').2 y (Or.inl hst1)
      · rcases List.mem_cons.mp hc' with rfl | hc''
        · exact (ih s1 hcs').2 y (Or.inl (IHc.2 y hr))
        · exact (ih s1 hcs').2 y (Or.inr ⟨c', hc'', hr⟩)

/-- The heart of the cascade analysis: in an acyclic graph, a cascade
with enough fuel leaves untouched every node that does not transitively
depend on the origin, and leaves every node that does (the origin
included) stable. -/
theorem cascadeNode_frame_stable {E : List Edge} (hA : Acyclic E) :
    ∀ (fuel : Nat) (x : Nat) (s : Nat → Status), DepthLE E fuel x →
      (∀ y, ¬ Reachable E y x → cascadeNode E fuel x s y = s y) ∧
      (∀ y, Reachable E y x → stable E (cascadeNode E fuel x s) y) := by
  intro fuel
  induction fuel with
  | zero =>
    intro x s h
    exact absurd h (by simp [DepthLE])
  | succ fuel ih =>
    intro x s h
    have hdeps : ∀ c ∈ dependents E x, DepthLE E fuel c := h
    have hunfold :
        cascadeNode E (fuel + 1) x s =
          (dependents E x).foldl (fun st c => cascadeNode E fuel c st)
            (resolveNode E s x) := rfl
    set s1 := resolveNode E s x with hs1def
    have hxnotdep : ∀ z ∈ deps E x, z ≠ x := by
      intro z hz hzx
      subst hzx
      exact hA z (Relation.TransGen.single (mem_deps.mp hz))
    have hs1deps : depStatuses E s1 x = depStatuses E s x := by
      unfold depStatuses
      apply List.map_congr_left
      intro z hz
      exact resolveNode_apply_ne E s (hxnotdep z hz)
    have hstabx : stable E s1 x := by
      unfold stable
      rw [hs1deps, hs1def, resolveNode_apply_self]
      exact resolveStatus_idem _ _
    have haux := cascadeFold_aux fuel ih (dependents E x) s1 hdeps
    constructor
    · intro y hy
      have hyx : y ≠ x := fun hyx => hy (hyx ▸ Relation.ReflTransGen.refl)
      have h1 : s1 y = s y := resolveNode_apply_ne E s hyx
      have h2 : ∀ c ∈ dependents E x, ¬ Reachable E y c := by
        intro c hc hr
        exact hy (hr.tail (mem_dependents.mp hc))
      rw [hunfold]
      rw [haux.1 y h2, h1]
    · intro y hy
      rw [hunfold]
      rcases hy.cases_tail with heq | ⟨w, hyw, hwx⟩
      · rw [← heq]
        exact haux.2 x (Or.inl hstabx)
      · exact haux.2 y (Or.inr ⟨w, mem_dependents.mpr hwx, hyw⟩)

theorem foldl_cascade_id {E : List Edge} {fuel : Nat} {s : Nat → Status} :
    ∀ cs : List Nat, (∀ c ∈ cs, cascadeNode E fuel c s = s) →
      cs.foldl (fun st c => cascadeNode E fuel c st) s = s := by
  intro cs
  induction cs with
  | nil =>
    intro _
    rfl
  | cons c cs ih =>
    intro hall
    have h1 : cascadeNode E fuel c s = s := hall c (List.mem_cons_self _ _)
    have h2 :
        (c :: cs).foldl (fun st c => cascadeNode E fuel c st) s =
          cs.foldl (fun st c => cascadeNode E fuel c st)
            (cascadeNode E fuel c s) := rfl
    rw [h2, h1]
    exact ih (fun c' hc' => hall c' (List.mem_cons_of_mem _ hc'))

/-- A cascade started at a node all of whose transitive dependents are
already stable changes nothing at all. -/
theorem cascadeNode_nop {E : List Edge} :
    ∀ (fuel : Nat) (x : Nat) (s : Nat → Status),
      (∀ y, Reachable E y x → stable E s y) →
      cascadeNode E fuel x s = s := by
  intro fuel
  induction fuel with
  | zero =>
    intro x s _
    rfl
  | succ fuel ih =>
    intro x s hstab
    have hs1 : resolveNode E s x = s := by
      apply updateS_same
      exact hstab x Relation.ReflTransGen.refl
    have hunfold :
        cascadeNode E (fuel + 1) x s =
          (dependents E x).foldl (fun st c => cascadeNode E fuel c st)
            (resolveNode E s x) := rfl
    rw [hunfold, hs1]
    apply foldl_cascade_id
    intro c hc
    apply ih
    intro y hy
    exact hstab y (hy.tail (mem_dependents.mp hc))

/-- One cascade pass over an acyclic graph reaches a fixed point:
re-running it immediately changes nothing. -/
theorem cascade_idem {E : List Edge} (x : Nat) (s : Nat → Status)
    (hA : Acyclic E) : cascade E x (cascade E x s) = cascade E x s := by
  have hD : DepthLE E (E.length + 2) x :=
    depthLE_mono (acyclic_depthLE hA x) (by omega)
  have hstab := (cascadeNode_frame_stable hA (E.length + 2) x s hD).2
  exact cascadeNode_nop (E.length + 2) x (cascade E x s) hstab

theorem resolveStatus_completed (ds : List Status) :
    resolveStatus Status.completed ds = Status.completed := by
  unfold resolveStatus
  by_cases h : ds = [] <;> simp [h]

theorem resolveNode_preserves_completed {E : List Edge}
    {s : Nat → Status} {x y : Nat} (h : s y = Status.completed) :
    resolveNode E s x y = Status.completed := by
  by_cases hyx : y = x
  · subst hyx
    rw [resolveNode_apply_self, h, resolveStatus_completed]
  · rw [resolveNode_apply_ne E s hyx, h]

theorem foldl_cascade_preserve {E : List Edge} {fuel : Nat}
    (P : (Nat → Status) → Prop)
    (hstep : ∀ c s, P s → P (cascadeNode E fuel c s)) :
    ∀ (cs : List Nat) (s : Nat → Status), P s →
      P (cs.foldl (fun st c => cascadeNode E fuel c st) s) := by
  intro cs
  induction cs with
  | nil =>
    intro s hs
    exact hs
  | cons c cs ih =>
    intro s hs
    exact ih _ (hstep c s hs)

/-- A cascade never rewrites a node whose status is `completed`. -/
theorem cascadeNode_preserves_completed {E : List Edge} :
    ∀ (fuel : Nat) (x : Nat) (s : Nat → Status) (y : Nat),
      s y = Status.completed →
      cascadeNode E fuel x s y = Status.completed := by
  intro fuel
  induction fuel with
  | zero =>
    intro x s y h
    exact h
  | succ fuel ih =>
    intro x s y h
    have hunfold :
        cascadeNode E (fuel + 1) x s =
          (dependents E x).foldl (fun st c => cascadeNode E fuel c st)
            (resolveNode E s x) := rfl
    rw [hunfold]
    exact foldl_cascade_preserve (fun s' => s' y = Status.completed)
      (fun c s' hs' => ih c s' y hs') (dependents E x)
      (resolveNode E s x) (resolveNode_preserves_completed h)

/-- A task as seen by the frontend `TaskItem` component: its id and the
ids of its current direct dependencies (the remaining payload fields —
title, description, status, dependents — play no role in the embedded
logic). -/
structure Task where
  id : Nat
  dependencies : List Nat
deriving DecidableEq, Repr

/-- Embedding of `availableDependencies` from TaskItem.jsx (lines 81-83):
the dropdown of tasks offered as new dependencies excludes the task
itself and every task already among its dependencies. -/
def availableDependencies (tasks : List Task) (task : Task) : List Task :=
  tasks.filter (fun t =>
    t.id != task.id && !(task.dependencies.contains t.id))

theorem availableDependencies_no_self (tasks : List Task) (task : Task) :
    (availableDependencies tasks task).all
      (fun t => t.id != task.id) = true := by
  rw [List.all_eq_true]
  intro t ht
  have hb := (List.mem_filter.mp ht).2
  simp only [Bool.and_eq_true] at hb
  exact hb.1

theorem availableDependencies_no_dup (tasks : List Task) (task : Task) :
    (availableDependencies tasks task).all
      (fun t => !(task.dependencies.contains t.id)) = true := by
  rw [List.all_eq_true]
  intro t ht
  have hb := (List.mem_filter.mp ht).2
  simp only [Bool.and_eq_true] at hb
  exact hb.2

/-- A graph edge as delivered to `DependencyGraph.jsx`: the JS object is
`{from, to}` with `from` the dependent and `to` the dependency; `from`
is a Lean keyword, hence the field names `fromId`/`toId`. -/
structure GEdge where
  fromId : Nat
  toId : Nat
deriving DecidableEq, Repr

/-- The dependents explored by `calculateLayer`: sources of the edges
pointing to `nodeId` (DependencyGraph.jsx lines 43-45). -/
def layerDependents (edges : List GEdge) (nodeId : Nat) : List Nat :=
  (edges.filter (fun e => decide (e.toId = nodeId))).map (·.fromId)

mutual

/-- Embedding of the recursive `calculateLayer` closure of
`calculateNodePositions` (DependencyGraph.jsx lines 35-50): an already
visited node is skipped; otherwise the node is marked visited, recorded
in the current layer, and the recursion continues into all its
dependents one layer deeper.  The returned pair is the visited set and
the list of (node id, layer) records; `fuel` is a termination bound (the
JS recursion is bounded by the growing visited set), instantiated large
enough by `calculateNodePositions` below, with fuel exhaustion (`none`)
proven unreachable. -/
def calculateLayer (edges : List GEdge) :
    Nat → Nat → Nat → List Nat → List (Nat × Nat) →
    Option (List Nat × List (Nat × Nat))
  | 0, _, _, _, _ => none
  | fuel + 1, nodeId, layer, visited, assign =>
    if nodeId ∈ visited then some (visited, assign)
    else
      calcLayerList edges fuel (layerDependents edges nodeId)
        (layer + 1) (nodeId :: visited) (assign ++ [(nodeId, layer)])

/-- Helper of `calculateLayer`: the `dependents.forEach` loop. -/
def calcLayerList (edges : List GEdge) :
    Nat → List Nat → Nat → List Nat → List (Nat × Nat) →
    Option (List Nat × List (Nat × Nat))
  | _, [], _, visited, assign => some (visited, assign)
  | fuel, d :: ds, layer, visited, assign =>
    match calculateLayer edges fuel d layer visited assign with
    | none => none
    | some (v, a) => calcLayerList edges fuel ds layer v a

end

/-- Embedding of `calculateNodePositions` (DependencyGraph.jsx lines
26-91) up to the final presentation step: the JS function converts each
layer record into concrete x/y pixel coordinates, creating a `positions`
entry for exactly the node ids recorded in the layer map, so the
returned assignment list is the key set of `positions`.  Root nodes (no
outgoing `from` edge) seed the recursion at layer 0 — or the first node
if there is no root — and every node left unvisited is then placed in
layer 0 (lines 52-70). -/
def calculateNodePositions (nodes : List Nat) (edges : List GEdge) :
    Option (List Nat × List (Nat × Nat)) :=
  match nodes with
  | [] => some ([], [])
  | n0 :: _ =>
    let fuel := nodes.length + edges.length + 1
    let roots :=
      nodes.filter (fun n => !(edges.any (fun e => decide (e.fromId = n))))
    let run :=
      if roots = [] then calculateLayer edges fuel n0 0 [] []
      else calcLayerList edges fuel roots 0 [] []
    match run with
    | none => none
    | some (vis, assign) =>
      some (vis,
        assign ++
          (nodes.filter (fun n => decide (n ∉ vis))).map (fun n => (n, 0)))

/-- Totality and coverage of the dependents loop, assuming both for
single `calculateLayer` calls at the same fuel. -/
theorem calcLayerList_total_of_node {edges : List GEdge} {L : List Nat}
    (fuel : Nat)
    (hnode : ∀ nodeId layer visited assign, nodeId ∈ L →
      unseen L visited + 1 ≤ fuel →
      ∃ v a, calculateLayer edges fuel nodeId layer visited assign =
          some (v, a) ∧
        (∀ x ∈ visited, x ∈ v) ∧ (∀ pr ∈ assign, pr ∈ a) ∧
        (∀ x ∈ v, x ∈ visited ∨ ∃ l, (x, l) ∈ a)) :
    ∀ (ns : List Nat) (layer : Nat) (visited : List Nat)
      (assign : List (Nat × Nat)), (∀ n ∈ ns, n ∈ L) →
      unseen L visited + 1 ≤ fuel →
      ∃ v a, calcLayerList edges fuel ns layer visited assign =
          some (v, a) ∧
        (∀ x ∈ visited, x ∈ v) ∧ (∀ pr ∈ assign, pr ∈ a) ∧
        (∀ x ∈ v, x ∈ visited ∨ ∃ l, (x, l) ∈ a) := by
  intro ns
  induction ns with
  | nil =>
    intro layer visited assign _ _
    exact ⟨visited, assign, by simp [calcLayerList], fun x hx => hx,
      fun pr hpr => hpr, fun x hx => Or.inl hx⟩
  | cons n ns ih =>
    intro layer visited assign hns hfuel
    obtain ⟨v1, a1, hrun1, hv1, ha1, hcov1⟩ :=
      hnode n layer visited assign (hns n (List.mem_cons_self _ _)) hfuel
    have hfuel2 : unseen L v1 + 1 ≤ fuel :=
      le_trans (Nat.add_le_add_right (unseen_anti hv1) 1) hfuel
    obtain ⟨v2, a2, hrun2, hv2, ha2, hcov2⟩ :=
      ih layer v1 a1 (fun m hm => hns m (List.mem_cons_of_mem _ hm)) hfuel2
    refine ⟨v2, a2, ?_, fun x hx => hv2 x (hv1 x hx),
      fun pr hpr => ha2 pr (ha1 pr hpr), ?_⟩
    · simp only [calcLayerList, hrun1]
      exact hrun2
    · intro x hx
      rcases hcov2 x hx with hxv1 | ⟨l, hl⟩
      · rcases hcov1 x hxv1 with hxv | ⟨l, hl⟩
        · exact Or.inl hxv
        · exact Or.inr ⟨l, ha2 _ hl⟩
      · exact Or.inr ⟨l, hl⟩

/-- Totality and coverage of `calculateLayer`: with adequate fuel the
recursion returns, only grows the visited set and the layer records, and
every visited node carries a layer record. -/
theorem calculateLayer_total {edges : List GEdge} {L : List Nat}
    (hL : ∀ e ∈ edges, e.fromId ∈ L) :
    ∀ (fuel : Nat) (nodeId layer : Nat) (visited : List Nat)
      (assign : List (Nat × Nat)), nodeId ∈ L →
      unseen L visited + 1 ≤ fuel →
      ∃ v a, calculateLayer edges fuel nodeId layer visited assign =
          some (v, a) ∧
        (∀ x ∈ visited, x ∈ v) ∧ (∀ pr ∈ assign, pr ∈ a) ∧
        (∀ x ∈ v, x ∈ visited ∨ ∃ l, (x, l) ∈ a) := by
  intro fuel
  induction fuel with
  | zero =>
    intro nodeId layer visited assign _ hfuel
    omega
  | succ fuel ih =>
    intro nodeId layer visited assign hnL hfuel
    by_cases hvis : nodeId ∈ visited
    · refine ⟨visited, assign, ?_, fun x hx => hx, fun pr hpr => hpr,
        fun x hx => Or.inl hx⟩
      simp [calculateLayer, hvis]
    · have hlt : unseen L (nodeId :: visited) < unseen L visited :=
        unseen_lt hnL hvis
      have hfuel' : unseen L (nodeId :: visited) + 1 ≤ fuel := by omega
      have hdepsL : ∀ n ∈ layerDependents edges nodeId, n ∈ L := by
        intro n hn
        simp only [layerDependents, List.mem_map, List.mem_filter] at hn
        obtain ⟨e, ⟨he, -⟩, rfl⟩ := hn
        exact hL e he
      obtain ⟨v, a, hrun, hv, ha, hcov⟩ :=
        calcLayerList_total_of_node fuel ih (layerDependents edges nodeId)
          (layer + 1) (nodeId :: visited) (assign ++ [(nodeId, layer)])
          hdepsL hfuel'
      refine ⟨v, a, ?_, ?_, ?_, ?_⟩
      · simp only [calculateLayer, if_neg hvis]
        exact hrun
      · exact fun x hx => hv x (List.mem_cons_of_mem _ hx)
      · exact fun pr hpr => ha pr (List.mem_append_left _ hpr)
      · intro x hx
        rcases hcov x hx with hxv | ⟨l, hl⟩
        · rcases List.mem_cons.mp hxv with rfl | hxv'
          · exact Or.inr ⟨layer, ha _ (List.mem_append_right _ (by simp))⟩
          · exact Or.inl hxv'
        · exact Or.inr ⟨l, hl⟩

/-- `calculateNodePositions` terminates on every input and produces a
layer record — hence a canvas position — for every node of the graph
data. -/
theorem calculateNodePositions_total (nodes : List Nat)
    (edges : List GEdge) :
    ∃ pr, calculateNodePositions nodes edges = some pr ∧
      ∀ id ∈ nodes, ∃ l, (id, l) ∈ pr.2 := by
  cases hnodes : nodes with
  | nil =>
    exact ⟨([], []), rfl, by simp⟩
  | cons n0 rest =>
    set L : List Nat := nodes ++ edges.map (·.fromId) with hLdef
    have hL : ∀ e ∈ edges, e.fromId ∈ L := by
      intro e he
      exact List.mem_append_right _ (List.mem_map_of_mem _ he)
    have hnodesL : ∀ n ∈ nodes, n ∈ L := fun n hn =>
      List.mem_append_left _ hn
    have hfuel : unseen L [] + 1 ≤ nodes.length + edges.length + 1 := by
      have h1 : unseen L [] ≤ L.length := unseen_le_length L
      have h2 : L.length = nodes.length + edges.length := by
        simp [hLdef]
      omega
    set roots : List Nat :=
      nodes.filter (fun n => !(edges.any (fun e => decide (e.fromId = n))))
      with hrootsdef
    have hrootsL : ∀ n ∈ roots, n ∈ L := fun n hn =>
      hnodesL n (List.mem_of_mem_filter hn)
    have hrun : ∃ v a,
        (if roots = []
          then calculateLayer edges (nodes.length + edges.length + 1) n0 0 [] []
          else calcLayerList edges (nodes.length + edges.length + 1) roots 0 [] []) =
            some (v, a) ∧
        ∀ x ∈ v, ∃ l, (x, l) ∈ a := by
      by_cases hroots : roots = []
      · obtain ⟨v, a, hr, -, -, hcov⟩ :=
          calculateLayer_total hL (nodes.length + edges.length + 1) n0 0 [] []
            (hnodesL n0 (hnodes ▸ List.mem_cons_self _ _)) hfuel
        refine ⟨v, a, ?_, ?_⟩
        · rw [if_pos hroots]
          exact hr
        · intro x hx
          rcases hcov x hx with hx' | h
          · simp at hx'
          · exact h
      · obtain ⟨v, a, hr, -, -, hcov⟩ :=
          calcLayerList_total_of_node (nodes.length + edges.length + 1)
            (fun nodeId layer visited assign =>
              calculateLayer_total hL (nodes.length + edges.length + 1)
                nodeId layer visited assign)
            roots 0 [] [] hrootsL hfuel
        refine ⟨v, a, ?_, ?_⟩
        · rw [if_neg hroots]
          exact hr
        · intro x hx
          rcases hcov x hx with hx' | h
          · simp at hx'
          · exact h
    obtain ⟨v, a, hr, hcov⟩ := hrun
    refine ⟨(v, a ++ (nodes.filter (fun n => decide (n ∉ v))).map
        (fun n => (n, 0))), ?_, ?_⟩
    · rw [← hnodes]
      unfold calculateNodePositions
      rw [hnodes]
      simp only [← hnodes, ← hrootsdef]
      rw [hr]
    · intro id hid
      by_cases hidv : id ∈ v
      · obtain ⟨l, hl⟩ := hcov id hidv
        exact ⟨l, List.mem_append_left _ hl⟩
      · refine ⟨0, List.mem_append_right _ ?_⟩
        apply List.mem_map_of_mem
        rw [List.mem_filter]
        exact ⟨hnodes ▸ hid, by simpa using hidv⟩

theorem acyclic_pair : Acyclic [((2 : Nat), (1 : Nat))] := by
  intro n h
  obtain ⟨m, hstep, hrtg⟩ := Relation.TransGen.head'_iff.mp h
  obtain ⟨rfl, rfl⟩ : n = 2 ∧ m = 1 := by
    have heq := List.mem_singleton.mp hstep
    injection heq with h1 h2
    exact ⟨h1, h2⟩
  rcases hrtg.cases_head with heq | ⟨c, hstep2, -⟩
  · exact absurd heq (by decide)
  · have heq2 := List.mem_singleton.mp hstep2
    injection heq2 with h1 h2
    exact absurd h1 (by decide)

/-- C1: for every graph and proposed edge `(u, v)` with `u` the dependent
and `v` the dependency, `ProposeEdge` accepts iff `u` is not already
reachable from `v` via existing edges, `u ≠ v`, and `(u, v)` is not
already an edge; otherwise it rejects (and the `ProposeResult` type makes
acceptance and the three rejection kinds mutually exclusive, so exactly
one error is reported). -/
theorem claim_C1_accept_iff (E : List Edge) (u v : Nat) :
    ProposeEdge E u v = .accept ↔
      ¬ Reachable E v u ∧ u ≠ v ∧ (u, v) ∉ E :=
  proposeEdge_accept_iff E u v

theorem claim_C1_witness :
    ¬ Reachable [((2 : Nat), (1 : Nat))] 1 3 ∧ (3 : Nat) ≠ 1 ∧
      ((3 : Nat), (1 : Nat)) ∉ [((2 : Nat), (1 : Nat))] :=
  (claim_C1_accept_iff [(2, 1)] 3 1).mp (by decide)

/-- C2: for every node with at least one direct dependency that is being
derived (its own status is not the terminal `completed`), the Status
Resolver returns `blocked` if any direct dependency is `blocked`;
otherwise `in_progress` if every direct dependency is `completed`;
otherwise `pending`. -/
theorem claim_C2_resolver_rules (own : Status) (ds : List Status)
    (hne : ds ≠ []) (hder : own ≠ Status.completed) :
    (Status.blocked ∈ ds → resolveStatus own ds = Status.blocked) ∧
    (Status.blocked ∉ ds → (∀ d ∈ ds, d = Status.completed) →
      resolveStatus own ds = Status.in_progress) ∧
    (Status.blocked ∉ ds → ¬ (∀ d ∈ ds, d = Status.completed) →
      resolveStatus own ds = Status.pending) := by
  unfold resolveStatus
  rw [if_neg hne, if_neg hder]
  refine ⟨fun hb => by rw [if_pos hb], fun hnb hall => ?_,
    fun hnb hnall => ?_⟩
  · rw [if_neg hnb, if_pos hall]
  · rw [if_neg hnb, if_neg hnall]

theorem claim_C2_witness :
    resolveStatus Status.pending [Status.blocked] = Status.blocked ∧
    resolveStatus Status.pending [Status.completed, Status.completed] =
      Status.in_progress ∧
    resolveStatus Status.in_progress [Status.completed, Status.pending] =
      Status.pending :=
  ⟨(claim_C2_resolver_rules Status.pending [Status.blocked] (by decide)
      (by decide)).1 (by decide),
   (claim_C2_resolver_rules Status.pending
      [Status.completed, Status.completed] (by decide) (by decide)).2.1
      (by decide) (by decide),
   (claim_C2_resolver_rules Status.in_progress
      [Status.completed, Status.pending] (by decide) (by decide)).2.2
      (by decide) (by decide)⟩

/-- C3: a node whose current status is `completed` is never changed by
any resolver application or cascade invocation, regardless of the
statuses of its dependencies: `completed` is terminal for derivation. -/
theorem claim_C3_completed_terminal (E : List Edge) (fuel : Nat)
    (s : Nat → Status) (x y : Nat) (h : s y = Status.completed) :
    resolveNode E s x y = Status.completed ∧
    cascadeNode E fuel x s y = Status.completed ∧
    cascade E x s y = Status.completed :=
  ⟨resolveNode_preserves_completed h,
   cascadeNode_preserves_completed fuel x s y h,
   cascadeNode_preserves_completed _ x s y h⟩

theorem claim_C3_witness :
    resolveNode [(2, 1)]
      (fun n => if n = 2 then Status.completed else Status.blocked) 2 2 =
      Status.completed ∧
    cascade [(2, 1)] 1
      (fun n => if n = 2 then Status.completed else Status.blocked) 2 =
      Status.completed := by
  constructor
  · exact (claim_C3_completed_terminal [(2, 1)] 4
      (fun n => if n = 2 then Status.completed else Status.blocked)
      2 2 (by decide)).1
  · exact (claim_C3_completed_terminal [(2, 1)] 4
      (fun n => if n = 2 then Status.completed else Status.blocked)
      1 2 (by decide)).2.2

/-- C4 counterexample: on the graph with the single edge 2→1 (task 2
depends on task 1), proposing 1→2 is rejected with path `[1, 2, 1]`.
The claim's general description — "the DFS path from dependency to
dependent inclusive with dependent appended a second time at the end" —
would give `[2, 1, 1]` here (the DFS path from 2 to 1 inclusive is
`[2, 1]`), which differs from the path the system actually reports and
from the claim's own concrete expectation. -/
theorem claim_C4_counterexample :
    ProposeEdge [(2, 1)] 1 2 = .circularDependency [1, 2, 1] ∧
    [1, 2, 1] ≠ [2, 1, 1] :=
  ⟨by decide, by decide⟩

/-- C4 amended: the reported path starts at the dependent, continues
with the DFS path from the dependency up to but excluding the dependent,
and closes with the dependent appended at the end; consecutive nodes of
the report are edges of the graph extended by the proposed edge, so the
report literally exhibits the cycle being closed.  Concretely, on a
graph with only edge 2→1, proposing 1→2 yields `[1, 2, 1]`, and on a
graph with edges 2→1 and 3→2, proposing 1→3 yields `[1, 3, 2, 1]`. -/
theorem claim_C4_amended_path_shape :
    (∀ (E : List Edge) (u v : Nat) (p : List Nat),
      ProposeEdge E u v = .circularDependency p →
      ∃ mid, p = u :: mid ++ [u] ∧ mid.head? = some v ∧
        List.Chain' (fun a b => (a, b) ∈ ((u, v) :: E)) p) ∧
    ProposeEdge [(2, 1)] 1 2 = .circularDependency [1, 2, 1] ∧
    ProposeEdge [(2, 1), (3, 2)] 1 3 = .circularDependency [1, 3, 2, 1] :=
  ⟨proposeEdge_circular_shape, by decide, by decide⟩

theorem claim_C4_witness :
    ProposeEdge [(2, 1)] 1 2 = ProposeResult.circularDependency [1, 2, 1] ∧
    ∃ mid, [1, 2, 1] = 1 :: mid ++ [1] ∧ mid.head? = some 2 ∧
      List.Chain' (fun a b => (a, b) ∈ [((1 : Nat), (2 : Nat)), (2, 1)])
        [1, 2, 1] :=
  ⟨by decide,
    claim_C4_amended_path_shape.1 [(2, 1)] 1 2 [1, 2, 1] (by decide)⟩

/-- C5: if the edge set is acyclic and `ProposeEdge` accepts an edge,
the graph extended by that edge is still acyclic — the DAG invariant
holds after every accepted mutation. -/
theorem claim_C5_dag_preserved (E : List Edge) (u v : Nat)
    (hA : Acyclic E) (hacc : ProposeEdge E u v = .accept) :
    Acyclic ((u, v) :: E) := by
  obtain ⟨hnr, hne, -⟩ := (proposeEdge_accept_iff E u v).mp hacc
  exact acyclic_insert hA hnr hne

theorem claim_C5_witness :
    Acyclic [((2 : Nat), (1 : Nat))] ∧
    ProposeEdge [(2, 1)] 3 1 = ProposeResult.accept ∧
    Acyclic [((3 : Nat), (1 : Nat)), (2, 1)] :=
  ⟨acyclic_pair, by decide,
    claim_C5_dag_preserved [(2, 1)] 3 1 acyclic_pair (by decide)⟩

/-- C6: the Status Resolver leaves a node with zero direct dependencies
completely untouched — the whole status map is unchanged, so no status
(in particular not `in_progress`) is ever assigned to a dependency-free
node by derivation. -/
theorem claim_C6_zero_deps_untouched (E : List Edge) (s : Nat → Status)
    (x : Nat) (h : deps E x = []) : resolveNode E s x = s := by
  have hds : depStatuses E s x = [] := by simp [depStatuses, h]
  apply updateS_same
  rw [hds]
  unfold resolveStatus
  simp

theorem claim_C6_witness :
    deps [((2 : Nat), (1 : Nat))] 1 = [] ∧
    resolveNode [(2, 1)] (fun _ => Status.pending) 1 =
      (fun _ => Status.pending) :=
  ⟨by decide, claim_C6_zero_deps_untouched [(2, 1)] _ 1 (by decide)⟩

/-- C7: over an acyclic graph, one cascade pass from the changed node
reaches a fixed point — running the cascade a second time on the
statuses produced by the first run changes no node's status. -/
theorem claim_C7_cascade_fixed_point (E : List Edge) (x : Nat)
    (s : Nat → Status) (hA : Acyclic E) :
    cascade E x (cascade E x s) = cascade E x s :=
  cascade_idem x s hA

theorem claim_C7_witness :
    Acyclic [((2 : Nat), (1 : Nat))] ∧
    cascade [(2, 1)] 1 (cascade [(2, 1)] 1 (fun _ => Status.pending)) =
      cascade [(2, 1)] 1 (fun _ => Status.pending) :=
  ⟨acyclic_pair,
    claim_C7_cascade_fixed_point [(2, 1)] 1 _ acyclic_pair⟩

/-- C8: proposing a self-edge `(u, u)` is rejected as `SelfDependency`
on every graph state, the empty graph included; the check precedes the
traversal (the outcome does not depend on the edge set at all), and the
error is a distinct constructor from `CircularDependency`.  In the
frontend, `availableDependencies` never even offers a task as its own
dependency. -/
theorem claim_C8_self_edge_rejected :
    (∀ (E : List Edge) (u : Nat),
      ProposeEdge E u u = .selfDependency) ∧
    ∀ (tasks : List Task) (task : Task),
      (availableDependencies tasks task).all
        (fun t => t.id != task.id) = true :=
  ⟨fun E u => by unfold ProposeEdge; rw [if_pos rfl],
   availableDependencies_no_self⟩

/-- C9: proposing an edge that is already present in a well-formed graph
(one without self-edges, which the data model rules out) is rejected as
`DuplicateDependency`, a distinct constructor — never re-accepted, and
decided before the cycle search.  In the frontend,
`availableDependencies` never offers an already-present dependency. -/
theorem claim_C9_duplicate_rejected :
    (∀ (E : List Edge) (u v : Nat), (u, v) ∈ E → (∀ e ∈ E, e.1 ≠ e.2) →
      ProposeEdge E u v = .duplicateDependency) ∧
    ∀ (tasks : List Task) (task : Task),
      (availableDependencies tasks task).all
        (fun t => !(task.dependencies.contains t.id)) = true := by
  refine ⟨?_, availableDependencies_no_dup⟩
  intro E u v hmem hwf
  have hne : u ≠ v := hwf (u, v) hmem
  unfold ProposeEdge
  rw [if_neg hne, if_pos hmem]

theorem claim_C9_witness :
    ((2 : Nat), (1 : Nat)) ∈ [((2 : Nat), (1 : Nat))] ∧
    ProposeEdge [(2, 1)] 2 1 = ProposeResult.duplicateDependency :=
  ⟨by decide,
    claim_C9_duplicate_rejected.1 [(2, 1)] 2 1 (by decide) (by decide)⟩

/-- C10: `calculateNodePositions` terminates on every graph-data input —
disconnected nodes and cyclic edge data included, thanks to the visited
set bounding the recursion — and assigns a layer record (hence a canvas
position) to every node: nodes reached from the root seeds get a layer
from the recursion, and every node left unvisited is placed in layer 0,
so no node is left without a position. -/
theorem claim_C10_layout_total (nodes : List Nat) (edges : List GEdge) :
    ∃ pr, calculateNodePositions nodes edges = some pr ∧
      ∀ id ∈ nodes, ∃ l, (id, l) ∈ pr.2 :=
  calculateNodePositions_total nodes edges

theorem claim_C10_witness :
    ∃ pr, calculateNodePositions [1, 2, 3] [⟨2, 1⟩, ⟨3, 2⟩] = some pr ∧
      ∃ l, ((3 : Nat), l) ∈ pr.2 := by
  obtain ⟨pr, h1, h2⟩ := claim_C10_layout_total [1, 2, 3] [⟨2, 1⟩, ⟨3, 2⟩]
  exact ⟨pr, h1, h2 3 (by decide)⟩

end TaskDep
